import Mathlib

/-!
Verification of the Cython core of the ISO8583-Simulator repository.

The development embeds the functions of `iso8583sim/core/_bitmap.pyx`,
`iso8583sim/core/_validator_fast.pyx` and `iso8583sim/core/_parser_fast.pyx`.

Modelling conventions:
* Python strings are modelled as `List Char`; `str.encode("ascii")` raises
  `UnicodeEncodeError` on any character whose code point is at least 128,
  modelled by an `Except.error` result, so every function that encodes its
  argument returns an `Except`.
* The C `uint64_t` registers in `_bitmap.pyx` receive at most sixteen
  4-bit shifts, hence never reach `2 ^ 64`; plain `Nat` is therefore an
  exact model of the register arithmetic (no wrap-around can occur).
* Python dict iteration over `fields` is modelled by a `List Nat` of the
  dict keys in iteration order; negative keys never occur in the claims
  considered here, so keys are naturals.
-/

namespace ISO8583

/-- Model of the `HEX_VALUES` lookup table of `_bitmap.pyx`: decimal digits map
to 0–9, `A`–`F` and `a`–`f` map to 10–15, every other byte maps to 255. -/
def hexVal (c : Char) : Nat :=
  if 48 ≤ c.toNat ∧ c.toNat ≤ 57 then c.toNat - 48
  else if 65 ≤ c.toNat ∧ c.toNat ≤ 70 then c.toNat - 65 + 10
  else if 97 ≤ c.toNat ∧ c.toNat ≤ 102 then c.toNat - 97 + 10
  else 255

/-- Model of a `str.encode("ascii")` failure: some character's code point is
128 or larger. -/
def hasNonAscii (s : List Char) : Bool :=
  s.any fun c => 128 ≤ c.toNat

/-- Model of the accumulation loops of `get_present_fields_fast`: for each
character, fail if its hex value exceeds 15, otherwise shift the accumulator
left by four bits and or the hex value in (`primary = (primary << 4) | hex_val`). -/
def parseHexNat : List Char → Nat → Except String Nat
  | [], acc => .ok acc
  | c :: cs, acc =>
    if 15 < hexVal c then .error "Invalid hex character"
    else parseHexNat cs ((acc <<< 4) ||| hexVal c)

/-- Model of the bit-extraction loops of `get_present_fields_fast`: for
`bit_pos` in 1..63 (bit position 0 is skipped), if bit `63 - bit_pos` of the
register is set, emit field number `offset + bit_pos + 1` (`offset` is 0 for
the primary register and 64 for the secondary register). -/
def extractFields (reg : Nat) (offset : Nat) : List Nat :=
  (List.range' 1 63).filterMap fun bp =>
    if reg &&& (1 <<< (63 - bp)) ≠ 0 then some (offset + bp + 1) else none

/-- Embedding of `get_present_fields_fast` of `_bitmap.pyx`. The source
encodes the whole string to ASCII, parses the first `min(16, len)` characters
into the primary register, parses characters 16–31 into the secondary register
when the length is exactly 32, then extracts bit positions 2–64 (and 66–128
when the length is 32). No length check is performed. -/
def get_present_fields_fast (bitmap : List Char) : Except String (List Nat) :=
  if hasNonAscii bitmap then .error "UnicodeEncodeError"
  else
    match parseHexNat (bitmap.take 16) 0 with
    | .error e => .error e
    | .ok primary =>
      if bitmap.length = 32 then
        match parseHexNat ((bitmap.drop 16).take 16) 0 with
        | .error e => .error e
        | .ok secondary => .ok (extractFields primary 0 ++ extractFields secondary 64)
      else .ok (extractFields primary 0)

/-- Model of the `for field_number in fields` loop of `build_bitmap_fast`:
skip key 0, or `1 << (64 - f)` into the primary register for keys 1–64, or
`1 << (128 - f)` into the secondary register (recording that a secondary
bitmap is needed) for keys 65–128. State is `(primary, secondary, need_secondary)`. -/
def buildLoop : List Nat → Nat × Nat × Bool → Nat × Nat × Bool
  | [], st => st
  | f :: fs, (p, s, ns) =>
    if f = 0 then buildLoop fs (p, s, ns)
    else if 1 ≤ f ∧ f ≤ 64 then buildLoop fs (p ||| (1 <<< (64 - f)), s, ns)
    else if 65 ≤ f ∧ f ≤ 128 then buildLoop fs (p, s ||| (1 <<< (128 - f)), true)
    else buildLoop fs (p, s, ns)

/-- Model of one output character of Python's `format(n, '016X')`: upper-case
hexadecimal digit of a value below 16. -/
def hexDigit (d : Nat) : Char :=
  if d < 10 then Char.ofNat (48 + d) else Char.ofNat (55 + d)

/-- Model of Python's `format(n, '0kX')` for a value below `16 ^ k`: the `k`
big-endian upper-case hexadecimal digits of `n`. -/
def toHexBE : Nat → Nat → List Char
  | 0, _ => []
  | k + 1, n => toHexBE k (n >>> 4) ++ [hexDigit (n &&& 15)]

/-- Embedding of `build_bitmap_fast` of `_bitmap.pyx`: run the key loop; when
a secondary bitmap is needed, set bit 1 of the primary register and emit both
registers as 16 hex characters each, otherwise emit the primary register alone. -/
def build_bitmap_fast (fields : List Nat) : List Char :=
  match buildLoop fields (0, 0, false) with
  | (p, s, ns) =>
    if ns then toHexBE 16 (p ||| (1 <<< 63)) ++ toHexBE 16 s
    else toHexBE 16 p

/-- Embedding of `validate_mti_format` of `_validator_fast.pyx`: reject unless
the length is exactly 4 (before any encoding), then encode to ASCII (which can
raise), then reject any non-digit, then reject a version digit above 1 and a
message-class digit of 0 or 7. -/
def validate_mti_format (mti : List Char) : Except String Bool :=
  match mti with
  | [c0, c1, c2, c3] =>
    if hasNonAscii [c0, c1, c2, c3] then .error "UnicodeEncodeError"
    else if [c0, c1, c2, c3].any (fun c => c.toNat < 48 ∨ 57 < c.toNat) then .ok false
    else if 1 < c0.toNat - 48 then .ok false
    else if c1.toNat - 48 = 0 ∨ c1.toNat - 48 = 7 then .ok false
    else .ok true
  | _ => .ok false

/-- Doubling step of the Luhn loop in `validate_pan_luhn`: `d *= 2; if d > 9: d -= 9`. -/
def luhnDouble (d : Nat) : Nat :=
  if 9 < d * 2 then d * 2 - 9 else d * 2

/-- One summand of the Luhn loop of `validate_pan_luhn`: the digit at
left-to-right index `i` is doubled exactly when `i % 2` equals
`parity = length % 2`. -/
def luhnTerm (parity i d : Nat) : Nat :=
  if i % 2 = parity then luhnDouble d else d

/-- Checksum of the Luhn loop of `validate_pan_luhn`, summed left-to-right
with index `i`. The source loops right-to-left accumulating the very same
summands into `checksum`; addition of naturals is commutative, so the
left-to-right indexed sum is the identical value. -/
def luhnSrcSum (parity : Nat) : Nat → List Nat → Nat
  | _, [] => 0
  | i, d :: rest => luhnTerm parity i d + luhnSrcSum parity (i + 1) rest

/-- Embedding of `validate_pan_luhn` of `_validator_fast.pyx`: encode to ASCII
(which can raise), reject the empty string, reject any non-digit, then test
whether the Luhn checksum is a multiple of 10. -/
def validate_pan_luhn (pan : List Char) : Except String Bool :=
  if hasNonAscii pan then .error "UnicodeEncodeError"
  else if pan.length = 0 then .ok false
  else if pan.any (fun c => c.toNat < 48 ∨ 57 < c.toNat) then .ok false
  else
    .ok (decide (luhnSrcSum (pan.length % 2) 0 (pan.map fun c => c.toNat - 48) % 10 = 0))

/-- Specification-side Luhn traversal: walking a digit list with `j` counting
the position from the right end of the PAN, double the digit exactly when `j`
is odd (every second digit starting with the second-rightmost), reducing
doubles above 9 by 9. -/
def luhnSpecGo : Nat → List Nat → Nat
  | _, [] => 0
  | j, d :: rest => (if j % 2 = 1 then luhnDouble d else d) + luhnSpecGo (j + 1) rest

/-- Specification-side Luhn checksum of the claim: traverse the digits
right-to-left, doubling every second digit starting with the second-rightmost,
subtracting 9 from doubled values exceeding 9, and sum. -/
def luhnSpecSum (ds : List Nat) : Nat :=
  luhnSpecGo 0 ds.reverse

/-- Embedding of `parse_length_indicator` of `_parser_fast.pyx`: fail when
fewer than `indicatorSize` characters remain at `position`; otherwise take the
slice, encode it to ASCII (which can raise), fail on any non-digit, and return
the decimal value of the slice together with the advanced position. The source
interleaves the digit check with the accumulation; since the loop aborts at
the first non-digit, this equals checking all characters and then folding. -/
def parse_length_indicator (message : List Char) (position indicatorSize : Nat) :
    Except String (Nat × Nat) :=
  if message.length < position + indicatorSize then
    .error "Message too short for length indicator"
  else
    let ls := (message.drop position).take indicatorSize
    if hasNonAscii ls then .error "UnicodeEncodeError"
    else if ls.any (fun c => c.toNat < 48 ∨ 57 < c.toNat) then
      .error "Invalid length indicator"
    else .ok (ls.foldl (fun a c => a * 10 + (c.toNat - 48)) 0, position + indicatorSize)

/-- Characters of a bitmap string that `get_present_fields_fast` reads through
the `HEX_VALUES` table: the first `min(16, length)` characters, plus
characters 16–31 exactly when the length is 32 (in which case that is the
whole string). -/
def readChars (bitmap : List Char) : List Char :=
  if bitmap.length = 32 then bitmap else bitmap.take 16

/-- Specification-side MTI shape of the claim: exactly four decimal digits,
first digit in 0, 1, 2, second digit in 1, 2, 3, 4, 5, 6, 8, 9. -/
def mtiClaimShape (mti : List Char) : Bool :=
  match mti with
  | [c0, c1, c2, c3] =>
    [c0, c1, c2, c3].all (fun c => 48 ≤ c.toNat && c.toNat ≤ 57) &&
      (c0.toNat - 48 ≤ 2) &&
      (c1.toNat - 48 ≠ 0 && c1.toNat - 48 ≠ 7)
  | _ => false

/-! Lemmas about the hexadecimal emission and parsing layer. -/

theorem hexVal_hexDigit {d : Nat} (h : d < 16) : hexVal (hexDigit d) = d := by
  interval_cases d <;> rfl

theorem hexDigit_toNat_lt {d : Nat} (h : d < 16) : (hexDigit d).toNat < 128 := by
  interval_cases d <;> decide

theorem toHexBE_length (k : Nat) : ∀ n, (toHexBE k n).length = k := by
  induction k with
  | zero => intro n; rfl
  | succ k ih => intro n; simp [toHexBE, ih]

theorem mem_toHexBE {k n : Nat} {c : Char} (hc : c ∈ toHexBE k n) :
    ∃ d, d < 16 ∧ c = hexDigit d := by
  induction k generalizing n with
  | zero => simp [toHexBE] at hc
  | succ k ih =>
    simp only [toHexBE, List.mem_append, List.mem_singleton] at hc
    rcases hc with hc | rfl
    · exact ih hc
    · exact ⟨n &&& 15, Nat.lt_succ_of_le Nat.and_le_right, rfl⟩

theorem hasNonAscii_toHexBE (k n : Nat) : hasNonAscii (toHexBE k n) = false := by
  simp only [hasNonAscii, List.any_eq_false, decide_eq_true_eq]
  intro c hc
  obtain ⟨d, hd, rfl⟩ := mem_toHexBE hc
  exact Nat.not_le.mpr (hexDigit_toNat_lt hd)

theorem parseHexNat_append (xs ys : List Char) (acc : Nat) :
    parseHexNat (xs ++ ys) acc =
      match parseHexNat xs acc with
      | .ok v => parseHexNat ys v
      | .error e => .error e := by
  induction xs generalizing acc with
  | nil => rfl
  | cons c cs ih =>
    simp only [List.cons_append, parseHexNat]
    split
    · rfl
    · exact ih _

theorem parseHexNat_toHexBE (k : Nat) :
    ∀ n acc, parseHexNat (toHexBE k n) acc = .ok (acc * 16 ^ k + n % 16 ^ k) := by
  induction k with
  | zero => intro n acc; simp [toHexBE, parseHexNat, Nat.mod_one]
  | succ k ih =>
    intro n acc
    have hand : n &&& 15 < 16 := Nat.lt_succ_of_le Nat.and_le_right
    have hdiv : n >>> 4 = n / 16 := by
      rw [Nat.shiftRight_eq_div_pow]
    have hmod : n &&& 15 = n % 16 := by
      have h15 : (15 : Nat) = 2 ^ 4 - 1 := by norm_num
      rw [h15, Nat.and_pow_two_sub_one_eq_mod]
    rw [toHexBE, parseHexNat_append, ih]
    simp only [parseHexNat, hexVal_hexDigit hand]
    rw [if_neg (show ¬ 15 < n &&& 15 from by omega)]
    congr 1
    have hor : (acc * 16 ^ k + n >>> 4 % 16 ^ k) <<< 4 ||| (n &&& 15) =
        2 ^ 4 * (acc * 16 ^ k + n >>> 4 % 16 ^ k) + (n &&& 15) := by
      rw [Nat.shiftLeft_eq, Nat.mul_comm]
      exact (Nat.mul_add_lt_is_or (by omega) _).symm
    rw [hor, hdiv, hmod]
    have hsplit : n % 16 ^ (k + 1) = n % 16 + 16 * (n / 16 % 16 ^ k) := by
      have h1616 : (16 : Nat) ^ (k + 1) = 16 * 16 ^ k := by ring
      rw [h1616, Nat.mod_mul]
    rw [hsplit]
    ring

theorem parseHexNat_toHexBE_of_lt {n : Nat} (h : n < 2 ^ 64) :
    parseHexNat (toHexBE 16 n) 0 = .ok n := by
  rw [parseHexNat_toHexBE]
  have h16 : (16 : Nat) ^ 16 = 2 ^ 64 := by norm_num
  rw [Nat.zero_mul, Nat.zero_add, h16, Nat.mod_eq_of_lt h]

/-! Lemmas characterising the registers produced by the key loop of
`build_bitmap_fast`. -/

theorem buildLoop_fst_testBit (l : List Nat) :
    ∀ (p s : Nat) (ns : Bool) (j : Nat),
      ((buildLoop l (p, s, ns)).1).testBit j =
        (p.testBit j || l.any fun f => decide (1 ≤ f ∧ f ≤ 64 ∧ 64 - f = j)) := by
  induction l with
  | nil => intro p s ns j; simp [buildLoop]
  | cons f fs ih =>
    intro p s ns j
    simp only [buildLoop]
    split_ifs with hf0 h164 h65
    · rw [ih]
      simp [hf0]
    · rw [ih]
      simp [Nat.one_shiftLeft, Nat.testBit_two_pow, h164.1, h164.2, Bool.or_assoc]
    · rw [ih]
      simp [show ¬ f ≤ 64 from by omega]
    · rw [ih]
      have h1 : 1 ≤ f := by omega
      simp [show ¬ f ≤ 64 from by omega]

theorem buildLoop_snd_testBit (l : List Nat) :
    ∀ (p s : Nat) (ns : Bool) (j : Nat),
      ((buildLoop l (p, s, ns)).2.1).testBit j =
        (s.testBit j || l.any fun f => decide (65 ≤ f ∧ f ≤ 128 ∧ 128 - f = j)) := by
  induction l with
  | nil => intro p s ns j; simp [buildLoop]
  | cons f fs ih =>
    intro p s ns j
    simp only [buildLoop]
    split_ifs with hf0 h164 h65
    · rw [ih]
      simp [hf0]
    · rw [ih]
      simp [show ¬ 65 ≤ f from by omega]
    · rw [ih]
      simp [Nat.one_shiftLeft, Nat.testBit_two_pow, h65.1, h65.2, Bool.or_assoc]
    · rw [ih]
      have h129 : 129 ≤ f := by omega
      simp [show ¬ f ≤ 128 from by omega]

theorem buildLoop_needSecondary (l : List Nat) :
    ∀ (p s : Nat) (ns : Bool),
      (buildLoop l (p, s, ns)).2.2 =
        (ns || l.any fun f => decide (65 ≤ f ∧ f ≤ 128)) := by
  induction l with
  | nil => intro p s ns; simp [buildLoop]
  | cons f fs ih =>
    intro p s ns
    simp only [buildLoop]
    split_ifs with hf0 h164 h65
    · rw [ih]
      simp [hf0]
    · rw [ih]
      simp [show ¬ 65 ≤ f from by omega]
    · rw [ih]
      simp [h65.1, h65.2]
    · rw [ih]
      have h129 : 129 ≤ f := by omega
      simp [show ¬ f ≤ 128 from by omega]

theorem buildLoop_fst_lt (l : List Nat) :
    ∀ (p s : Nat) (ns : Bool), p < 2 ^ 64 → (buildLoop l (p, s, ns)).1 < 2 ^ 64 := by
  induction l with
  | nil => intro p s ns hp; exact hp
  | cons f fs ih =>
    intro p s ns hp
    simp only [buildLoop]
    split_ifs with hf0 h164 h65
    · exact ih _ _ _ hp
    · refine ih _ _ _ (Nat.or_lt_two_pow hp ?_)
      rw [Nat.one_shiftLeft]
      exact Nat.pow_lt_pow_right (by norm_num) (by omega)
    · exact ih _ _ _ hp
    · exact ih _ _ _ hp

theorem buildLoop_snd_lt (l : List Nat) :
    ∀ (p s : Nat) (ns : Bool), s < 2 ^ 64 → (buildLoop l (p, s, ns)).2.1 < 2 ^ 64 := by
  induction l with
  | nil => intro p s ns hs; exact hs
  | cons f fs ih =>
    intro p s ns hs
    simp only [buildLoop]
    split_ifs with hf0 h164 h65
    · exact ih _ _ _ hs
    · exact ih _ _ _ hs
    · refine ih _ _ _ (Nat.or_lt_two_pow hs ?_)
      rw [Nat.one_shiftLeft]
      exact Nat.pow_lt_pow_right (by norm_num) (by omega)
    · exact ih _ _ _ hs

/-! Lemmas relating the bit-extraction loop to a filtered range of field
numbers, and a filtered range of field numbers to the sorted key list. -/

theorem and_one_shiftLeft_ne_zero (reg k : Nat) :
    reg &&& (1 <<< k) ≠ 0 ↔ reg.testBit k = true := by
  rw [Nat.one_shiftLeft, Nat.and_two_pow]
  cases h : reg.testBit k <;> simp [h, (Nat.two_pow_pos k).ne']

theorem extract_aux (reg off : Nat) (l : List Nat) :
    ∀ (n s : Nat),
      (∀ bp, s ≤ bp → bp < s + n → (reg.testBit (63 - bp) = true ↔ (off + bp + 1) ∈ l)) →
      ((List.range' s n).filterMap fun bp =>
          if reg &&& (1 <<< (63 - bp)) ≠ 0 then some (off + bp + 1) else none) =
        (List.range' (off + s + 1) n).filter fun f => decide (f ∈ l) := by
  intro n
  induction n with
  | zero => intro s h; rfl
  | succ n ih =>
    intro s h
    rw [List.range'_succ, List.range'_succ]
    have hiff : reg &&& (1 <<< (63 - s)) ≠ 0 ↔ (off + s + 1) ∈ l := by
      rw [and_one_shiftLeft_ne_zero]
      exact h s (Nat.le_refl s) (by omega)
    have hrec := ih (s + 1) (fun bp h1 h2 => h bp (by omega) (by omega))
    have hstart : off + (s + 1) + 1 = off + s + 1 + 1 := by omega
    rw [hstart] at hrec
    rw [List.filter_cons]
    by_cases hbit : reg &&& (1 <<< (63 - s)) ≠ 0
    · have hdec : decide ((off + s + 1) ∈ l) = true := decide_eq_true (hiff.mp hbit)
      rw [List.filterMap_cons_some (by rw [if_pos hbit]), hdec, if_pos rfl, hrec]
    · have hdec : decide ((off + s + 1) ∈ l) = false :=
        decide_eq_false (fun hm => hbit (hiff.mpr hm))
      rw [List.filterMap_cons_none (by rw [if_neg hbit]), hdec,
        if_neg (by simp), hrec]

theorem extractFields_eq_filter (reg off : Nat) (l : List Nat)
    (h : ∀ bp, 1 ≤ bp → bp ≤ 63 → (reg.testBit (63 - bp) = true ↔ (off + bp + 1) ∈ l)) :
    extractFields reg off = (List.range' (off + 2) 63).filter fun f => decide (f ∈ l) := by
  have haux := extract_aux reg off l 63 1 (fun bp h1 h2 => h bp h1 (by omega))
  rw [extractFields, haux]

theorem filter_range'_eq_sort (l : List Nat) (s n : Nat)
    (hmem : ∀ f ∈ l, s ≤ f ∧ f < s + n) :
    List.filter (fun f => decide (f ∈ l)) (List.range' s n) = l.toFinset.sort (· ≤ ·) := by
  have d₁ : (List.filter (fun f => decide (f ∈ l)) (List.range' s n)).Nodup :=
    (List.nodup_range' s n).filter _
  have d₂ : (l.toFinset.sort (· ≤ ·)).Nodup := Finset.sort_nodup (· ≤ ·) l.toFinset
  have hperm : List.Perm (List.filter (fun f => decide (f ∈ l)) (List.range' s n))
      (l.toFinset.sort (· ≤ ·)) := by
    rw [List.perm_ext_iff_of_nodup d₁ d₂]
    intro a
    simp only [List.mem_filter, List.mem_range'_1, decide_eq_true_eq, Finset.mem_sort,
      List.mem_toFinset]
    constructor
    · exact fun hx => hx.2
    · exact fun hx => ⟨⟨(hmem a hx).1, (hmem a hx).2⟩, hx⟩
  refine List.eq_of_perm_of_sorted hperm ?_ (Finset.sort_sorted (· ≤ ·) l.toFinset)
  exact List.Pairwise.filter _ ((List.pairwise_lt_range' s n).imp fun h => Nat.le_of_lt h)

theorem hasNonAscii_append (xs ys : List Char) :
    hasNonAscii (xs ++ ys) = (hasNonAscii xs || hasNonAscii ys) := by
  simp [hasNonAscii]

theorem decode16 (p : Nat) (hplt : p < 2 ^ 64) :
    get_present_fields_fast (toHexBE 16 p) = .ok (extractFields p 0) := by
  simp only [get_present_fields_fast]
  rw [List.take_of_length_le (by rw [toHexBE_length])]
  rw [parseHexNat_toHexBE_of_lt hplt]
  rw [toHexBE_length]
  simp [hasNonAscii_toHexBE]

theorem decode32 (p s : Nat) (hplt : p < 2 ^ 64) (hslt : s < 2 ^ 64) :
    get_present_fields_fast (toHexBE 16 p ++ toHexBE 16 s) =
      .ok (extractFields p 0 ++ extractFields s 64) := by
  simp only [get_present_fields_fast]
  rw [List.take_left' (toHexBE_length 16 p), List.drop_left' (toHexBE_length 16 p)]
  rw [List.take_of_length_le (by rw [toHexBE_length])]
  rw [parseHexNat_toHexBE_of_lt hplt, parseHexNat_toHexBE_of_lt hslt]
  have hlen : (toHexBE 16 p ++ toHexBE 16 s).length = 32 := by
    simp [toHexBE_length]
  rw [hlen]
  have hna : hasNonAscii (toHexBE 16 p ++ toHexBE 16 s) = false := by
    rw [hasNonAscii_append, hasNonAscii_toHexBE, hasNonAscii_toHexBE]
    rfl
  simp [hna]

/-- C1. Bitmap round-trip: for every fields map whose keys all lie in the
range 2–128 and exclude 65, decoding the encoded bitmap recovers exactly
those keys in ascending order: `get_present_fields_fast (build_bitmap_fast
fields)` succeeds with the keys of `fields` sorted ascending. Keys are
modelled as the list of dict keys in iteration order. -/
theorem bitmap_roundtrip (l : List Nat)
    (hmem : ∀ f ∈ l, 2 ≤ f ∧ f ≤ 128 ∧ f ≠ 65) :
    get_present_fields_fast (build_bitmap_fast l) =
      .ok (l.toFinset.sort (· ≤ ·)) := by
  rcases hb : buildLoop l (0, 0, false) with ⟨p, s, ns⟩
  have hp : ∀ j, p.testBit j
      = (l.any fun f => decide (1 ≤ f ∧ f ≤ 64 ∧ 64 - f = j)) := by
    intro j
    have h := buildLoop_fst_testBit l 0 0 false j
    rw [hb] at h
    simpa using h
  have hsb : ∀ j, s.testBit j
      = (l.any fun f => decide (65 ≤ f ∧ f ≤ 128 ∧ 128 - f = j)) := by
    intro j
    have h := buildLoop_snd_testBit l 0 0 false j
    rw [hb] at h
    simpa using h
  have hns : ns = (l.any fun f => decide (65 ≤ f ∧ f ≤ 128)) := by
    have h := buildLoop_needSecondary l 0 0 false
    rw [hb] at h
    simpa using h
  have hplt : p < 2 ^ 64 := by
    have h := buildLoop_fst_lt l 0 0 false (Nat.two_pow_pos 64)
    rw [hb] at h
    exact h
  have hslt : s < 2 ^ 64 := by
    have h := buildLoop_snd_lt l 0 0 false (Nat.two_pow_pos 64)
    rw [hb] at h
    exact h
  have h65notin : (65 : Nat) ∉ l := fun hm => (hmem 65 hm).2.2 rfl
  have hpmem : ∀ bp, 1 ≤ bp → bp ≤ 63 →
      (p.testBit (63 - bp) = true ↔ (0 + bp + 1) ∈ l) := by
    intro bp h1 h2
    rw [hp]
    simp only [List.any_eq_true, decide_eq_true_eq]
    constructor
    · rintro ⟨f, hfl, hf1, hf64, hfe⟩
      have hfeq : f = bp + 1 := by omega
      subst hfeq
      simpa using hfl
    · intro hin
      exact ⟨bp + 1, by simpa using hin, by omega, by omega, by omega⟩
  have hsmem : ∀ bp, 1 ≤ bp → bp ≤ 63 →
      (s.testBit (63 - bp) = true ↔ (64 + bp + 1) ∈ l) := by
    intro bp h1 h2
    rw [hsb]
    simp only [List.any_eq_true, decide_eq_true_eq]
    constructor
    · rintro ⟨f, hfl, hf1, hf128, hfe⟩
      have hfeq : f = 64 + bp + 1 := by omega
      subst hfeq
      exact hfl
    · intro hin
      exact ⟨64 + bp + 1, hin, by omega, by omega, by omega⟩
  cases ns with
  | false =>
    have hall64 : ∀ f ∈ l, f ≤ 64 := by
      intro f hf
      have hany : l.any (fun f => decide (65 ≤ f ∧ f ≤ 128)) = false := hns.symm
      rw [List.any_eq_false] at hany
      have hnf := hany f hf
      simp only [decide_eq_true_eq] at hnf
      have hle := (hmem f hf).2.1
      omega
    have hbuild : build_bitmap_fast l = toHexBE 16 p := by
      simp only [build_bitmap_fast, hb]
      rfl
    rw [hbuild, decode16 p hplt]
    congr 1
    rw [extractFields_eq_filter p 0 l hpmem]
    have hfin := filter_range'_eq_sort l 2 63
      (fun f hf => ⟨(hmem f hf).1, by have := hall64 f hf; omega⟩)
    simpa using hfin
  | true =>
    have hbuild : build_bitmap_fast l = toHexBE 16 (p ||| 1 <<< 63) ++ toHexBE 16 s := by
      simp only [build_bitmap_fast, hb]
      rfl
    have hp2lt : p ||| 1 <<< 63 < 2 ^ 64 := by
      refine Nat.or_lt_two_pow hplt ?_
      rw [Nat.one_shiftLeft]
      exact Nat.pow_lt_pow_right (by norm_num) (by norm_num)
    rw [hbuild, decode32 _ s hp2lt hslt]
    congr 1
    have hp2mem : ∀ bp, 1 ≤ bp → bp ≤ 63 →
        ((p ||| 1 <<< 63).testBit (63 - bp) = true ↔ (0 + bp + 1) ∈ l) := by
      intro bp h1 h2
      rw [Nat.testBit_or, Nat.one_shiftLeft, Nat.testBit_two_pow]
      have hne : ¬ (63 = 63 - bp) := by omega
      simp only [hne, decide_False, Bool.or_false]
      exact hpmem bp h1 h2
    rw [extractFields_eq_filter _ 0 l hp2mem, extractFields_eq_filter s 64 l hsmem]
    have hsplit : List.range' 2 127 = List.range' 2 63 ++ (65 :: List.range' 66 63) := by
      rfl
    have hfin := filter_range'_eq_sort l 2 127
      (fun f hf => ⟨(hmem f hf).1, by have := (hmem f hf).2.1; omega⟩)
    rw [hsplit, List.filter_append, List.filter_cons] at hfin
    have h65dec : decide ((65 : Nat) ∈ l) = false := decide_eq_false h65notin
    rw [h65dec, if_neg (by simp)] at hfin
    simpa using hfin

/-- Witness for C1: a concrete fields map with keys 3, 70, 2 satisfies the
hypotheses and round-trips to the sorted key list. -/
theorem bitmap_roundtrip_witness :
    get_present_fields_fast (build_bitmap_fast [3, 70, 2]) =
      .ok (([3, 70, 2] : List Nat).toFinset.sort (· ≤ ·)) :=
  bitmap_roundtrip [3, 70, 2] (by decide)

/-- C2. The MTI "2100" is four decimal digits with first digit 2 and second
digit 1, so it satisfies the claimed MTI shape, yet `validate_mti_format`
returns false for it: the source rejects every version digit above 1, while
the repository's own documentation lists version digit 2 (ISO 8583:2003) as
valid. -/
theorem validate_mti_format_rejects_version_two :
    validate_mti_format ['2', '1', '0', '0'] = .ok false ∧
      mtiClaimShape ['2', '1', '0', '0'] = true :=
  ⟨rfl, rfl⟩

/-! Lemmas relating the Luhn loop of the source (left-to-right index compared
against the length parity) to the specification traversal (right-to-left
position, doubling at odd positions). -/

theorem luhnSrcSum_append (parity : Nat) (ds : List Nat) (d : Nat) :
    ∀ i, luhnSrcSum parity i (ds ++ [d]) =
      luhnSrcSum parity i ds + luhnTerm parity (i + ds.length) d := by
  induction ds with
  | nil => intro i; simp [luhnSrcSum]
  | cons x xs ih =>
    intro i
    simp only [List.cons_append, luhnSrcSum, List.append_eq, List.length_cons]
    rw [ih (i + 1)]
    have hidx : i + 1 + xs.length = i + (xs.length + 1) := by omega
    rw [hidx]
    omega

theorem luhnSrc_eq_specGo (ds : List Nat) :
    ∀ k, luhnSrcSum ((ds.length + k) % 2) 0 ds = luhnSpecGo k ds.reverse := by
  induction ds using List.reverseRecOn with
  | nil => intro k; simp [luhnSrcSum, luhnSpecGo]
  | append_singleton ds d ih =>
    intro k
    have hrev : (ds ++ [d]).reverse = d :: ds.reverse := by simp
    have hlen : (ds ++ [d]).length = ds.length + 1 := by simp
    rw [hrev, hlen, luhnSpecGo, luhnSrcSum_append]
    have hpar : (ds.length + 1 + k) % 2 = (ds.length + (k + 1)) % 2 := by omega
    rw [hpar, ih (k + 1), luhnTerm]
    have hcond : ((0 + ds.length) % 2 = (ds.length + (k + 1)) % 2) ↔ k % 2 = 1 := by omega
    rw [if_congr hcond rfl rfl]
    omega

/-- C3. Luhn check: for every non-empty string of decimal digits,
`validate_pan_luhn` returns true exactly when the specification checksum
(traverse right-to-left, double every second digit starting with the
second-rightmost, subtract 9 from doubled values above 9, sum) is a
multiple of 10. -/
theorem validate_pan_luhn_correct (pan : List Char)
    (hne : pan ≠ []) (hdig : ∀ c ∈ pan, 48 ≤ c.toNat ∧ c.toNat ≤ 57) :
    (validate_pan_luhn pan = .ok true ↔
      luhnSpecSum (pan.map fun c => c.toNat - 48) % 10 = 0) := by
  have hna : hasNonAscii pan = false := by
    simp only [hasNonAscii, List.any_eq_false, decide_eq_true_eq]
    intro c hc
    have := hdig c hc
    omega
  have hlen0 : ¬ pan.length = 0 := by
    cases pan with
    | nil => exact absurd rfl hne
    | cons c cs => simp
  have hdigB : pan.any (fun c => decide (c.toNat < 48 ∨ 57 < c.toNat)) = false := by
    simp only [List.any_eq_false, decide_eq_true_eq]
    intro c hc
    have := hdig c hc
    omega
  have hsum : luhnSrcSum (pan.length % 2) 0 (pan.map fun c => c.toNat - 48) =
      luhnSpecSum (pan.map fun c => c.toNat - 48) := by
    have h := luhnSrc_eq_specGo (pan.map fun c => c.toNat - 48) 0
    rw [luhnSpecSum]
    simp only [List.length_map, Nat.add_zero] at h
    exact h
  simp only [validate_pan_luhn, hna, hdigB, Bool.false_eq_true, if_false, hlen0, hsum]
  simp [decide_eq_true_eq]

/-- Witness for C3: the canonical Luhn-valid number 79927398713 is accepted. -/
theorem validate_pan_luhn_witness :
    validate_pan_luhn ['7', '9', '9', '2', '7', '3', '9', '8', '7', '1', '3'] = .ok true := by
  have h := validate_pan_luhn_correct
    ['7', '9', '9', '2', '7', '3', '9', '8', '7', '1', '3'] (by decide) (by decide)
  exact h.mpr (by decide)

/-! Lemmas for the length-indicator parser. -/

theorem decFold_lt (ds : List Char) :
    ∀ acc, (∀ c ∈ ds, 48 ≤ c.toNat ∧ c.toNat ≤ 57) →
      ds.foldl (fun a c => a * 10 + (c.toNat - 48)) acc < (acc + 1) * 10 ^ ds.length := by
  induction ds with
  | nil => intro acc h; simp
  | cons c cs ih =>
    intro acc h
    have hc := h c (List.mem_cons_self c cs)
    have hrec := ih (acc * 10 + (c.toNat - 48)) (fun x hx => h x (List.mem_cons_of_mem c hx))
    simp only [List.foldl_cons, List.length_cons]
    refine Nat.lt_of_lt_of_le hrec ?_
    have hstep : acc * 10 + (c.toNat - 48) + 1 ≤ (acc + 1) * 10 := by omega
    calc (acc * 10 + (c.toNat - 48) + 1) * 10 ^ cs.length
        ≤ (acc + 1) * 10 * 10 ^ cs.length := Nat.mul_le_mul_right _ hstep
      _ = (acc + 1) * 10 ^ (cs.length + 1) := by ring

/-- C5. Variable-length prefix parse: with an indicator size of 2 or 3,
`parse_length_indicator` returns the decimal value of the indicator
characters (below 10^k) together with the advanced position whenever enough
characters remain and they are all decimal digits, and signals an error
otherwise (too few characters, or some indicator character not a decimal
digit — including non-ASCII characters, which fail the encode step). -/
theorem parse_length_indicator_correct (m : List Char) (p k : Nat)
    (_hk : k = 2 ∨ k = 3) :
    ((p + k ≤ m.length ∧ ∀ c ∈ (m.drop p).take k, 48 ≤ c.toNat ∧ c.toNat ≤ 57) →
        parse_length_indicator m p k =
          .ok (((m.drop p).take k).foldl (fun a c => a * 10 + (c.toNat - 48)) 0, p + k) ∧
          ((m.drop p).take k).foldl (fun a c => a * 10 + (c.toNat - 48)) 0 < 10 ^ k) ∧
      (¬ (p + k ≤ m.length ∧ ∀ c ∈ (m.drop p).take k, 48 ≤ c.toNat ∧ c.toNat ≤ 57) →
        ∃ e, parse_length_indicator m p k = .error e) := by
  constructor
  · rintro ⟨hlen, hdig⟩
    have hnl : ¬ m.length < p + k := by omega
    have hna : hasNonAscii ((m.drop p).take k) = false := by
      simp only [hasNonAscii, List.any_eq_false, decide_eq_true_eq]
      intro c hc
      have := hdig c hc
      omega
    have hdigB : ((m.drop p).take k).any (fun c => decide (c.toNat < 48 ∨ 57 < c.toNat))
        = false := by
      simp only [List.any_eq_false, decide_eq_true_eq]
      intro c hc
      have := hdig c hc
      omega
    have hslen : ((m.drop p).take k).length = k := by
      simp only [List.length_take, List.length_drop]
      omega
    refine ⟨?_, ?_⟩
    · simp only [parse_length_indicator, hna, hdigB, Bool.false_eq_true, if_false, hnl]
    · have hb := decFold_lt ((m.drop p).take k) 0 hdig
      rw [hslen] at hb
      simpa using hb
  · intro hfail
    by_cases hl : m.length < p + k
    · exact ⟨"Message too short for length indicator",
        by simp only [parse_length_indicator]; rw [if_pos hl]⟩
    · have hlen : p + k ≤ m.length := by omega
      have hbad : ∃ c ∈ (m.drop p).take k, ¬ (48 ≤ c.toNat ∧ c.toNat ≤ 57) := by
        by_contra hc
        push_neg at hc
        exact hfail ⟨hlen, hc⟩
      obtain ⟨c, hcm, hcd⟩ := hbad
      by_cases hasc : hasNonAscii ((m.drop p).take k) = true
      · exact ⟨"UnicodeEncodeError",
          by simp only [parse_length_indicator]; rw [if_neg hl]; simp only [hasc, if_true]⟩
      · have hascf : hasNonAscii ((m.drop p).take k) = false := by
          revert hasc
          cases hasNonAscii ((m.drop p).take k) <;> simp
        have hcs : c.toNat < 128 := by
          have hall : ∀ x ∈ (m.drop p).take k, ¬ (128 ≤ x.toNat) := by
            have h2 := hascf
            rw [hasNonAscii, List.any_eq_false] at h2
            intro x hx
            have hx2 := h2 x hx
            simpa using hx2
          have := hall c hcm
          omega
        have hany : ((m.drop p).take k).any (fun c => decide (c.toNat < 48 ∨ 57 < c.toNat))
            = true :=
          List.any_eq_true.mpr ⟨c, hcm, decide_eq_true (by omega)⟩
        exact ⟨"Invalid length indicator",
          by
            simp only [parse_length_indicator]
            rw [if_neg hl]
            simp only [hascf, hany, Bool.false_eq_true, if_false, if_true]⟩

/-! Lemmas for the error behaviour of the bitmap parser. -/

theorem parseHexNat_error_iff (cs : List Char) :
    ∀ acc, (∃ e, parseHexNat cs acc = .error e) ↔ ∃ c ∈ cs, 15 < hexVal c := by
  induction cs with
  | nil =>
    intro acc
    constructor
    · rintro ⟨e, he⟩
      exact absurd he (by simp [parseHexNat])
    · rintro ⟨c, hc, _⟩
      exact absurd hc (List.not_mem_nil c)
  | cons c cs ih =>
    intro acc
    by_cases hc : 15 < hexVal c
    · constructor
      · intro _
        exact ⟨c, List.mem_cons_self c cs, hc⟩
      · intro _
        exact ⟨"Invalid hex character", by simp [parseHexNat, hc]⟩
    · rw [show parseHexNat (c :: cs) acc = parseHexNat cs ((acc <<< 4) ||| hexVal c) from by
        simp [parseHexNat, hc]]
      rw [ih]
      constructor
      · rintro ⟨x, hx, hxv⟩
        exact ⟨x, List.mem_cons_of_mem c hx, hxv⟩
      · rintro ⟨x, hx, hxv⟩
        rcases List.mem_cons.mp hx with rfl | hx2
        · exact absurd hxv hc
        · exact ⟨x, hx2, hxv⟩

theorem parseHexNat_ok_all {cs : List Char} {acc v : Nat}
    (h : parseHexNat cs acc = .ok v) : ∀ c ∈ cs, hexVal c ≤ 15 := by
  intro c hc
  by_contra hbad
  obtain ⟨e, he⟩ := (parseHexNat_error_iff cs acc).mpr ⟨c, hc, by omega⟩
  rw [h] at he
  exact Except.noConfusion he

/-- C4 counterexample: the empty string has length neither 16 nor 32, yet
`get_present_fields_fast` returns normally with the empty field list instead
of signalling an error — the source performs no length check. -/
theorem get_present_fields_fast_no_length_error :
    get_present_fields_fast [] = .ok [] ∧
      ([] : List Char).length ≠ 16 ∧ ([] : List Char).length ≠ 32 :=
  ⟨rfl, by decide, by decide⟩

/-- C4 amended. `get_present_fields_fast` signals an error exactly when the
input contains a non-ASCII character anywhere (the encode step) or a
non-hexadecimal character among the characters it reads (the first
`min(16, length)` characters, plus characters 16–31 when the length is
exactly 32); it performs no length check, so any other input of any length
returns normally. -/
theorem get_present_fields_fast_error_iff (bitmap : List Char) :
    (∃ e, get_present_fields_fast bitmap = .error e) ↔
      (hasNonAscii bitmap = true ∨ ∃ c ∈ readChars bitmap, 15 < hexVal c) := by
  by_cases hna : hasNonAscii bitmap = true
  · constructor
    · intro _
      exact Or.inl hna
    · intro _
      exact ⟨"UnicodeEncodeError", by simp only [get_present_fields_fast, hna, if_true]⟩
  · have hnaf : hasNonAscii bitmap = false := by
      revert hna
      cases hasNonAscii bitmap <;> simp
    cases hpr : parseHexNat (bitmap.take 16) 0 with
    | error e =>
      have hget : get_present_fields_fast bitmap = .error e := by
        simp only [get_present_fields_fast, hnaf, Bool.false_eq_true, if_false, hpr]
      rw [hget]
      have hex : ∃ c ∈ bitmap.take 16, 15 < hexVal c :=
        (parseHexNat_error_iff _ 0).mp ⟨e, hpr⟩
      constructor
      · intro _
        obtain ⟨c, hc, hcv⟩ := hex
        refine Or.inr ⟨c, ?_, hcv⟩
        rw [readChars]
        split_ifs with h32
        · exact List.mem_of_mem_take hc
        · exact hc
      · intro _
        exact ⟨e, rfl⟩
    | ok v =>
      have hget : get_present_fields_fast bitmap =
          if bitmap.length = 32 then
            match parseHexNat ((bitmap.drop 16).take 16) 0 with
            | .error e => .error e
            | .ok secondary => .ok (extractFields v 0 ++ extractFields secondary 64)
          else .ok (extractFields v 0) := by
        simp only [get_present_fields_fast, hnaf, Bool.false_eq_true, if_false, hpr]
      rw [hget]
      by_cases h32 : bitmap.length = 32
      · rw [if_pos h32]
        cases hps : parseHexNat ((bitmap.drop 16).take 16) 0 with
        | error e2 =>
          have hex : ∃ c ∈ (bitmap.drop 16).take 16, 15 < hexVal c :=
            (parseHexNat_error_iff _ 0).mp ⟨e2, hps⟩
          constructor
          · intro _
            obtain ⟨c, hc, hcv⟩ := hex
            refine Or.inr ⟨c, ?_, hcv⟩
            rw [readChars, if_pos h32]
            exact List.mem_of_mem_drop (List.mem_of_mem_take hc)
          · intro _
            exact ⟨e2, rfl⟩
        | ok v2 =>
          constructor
          · rintro ⟨e, he⟩
            exact absurd he (by simp)
          · rintro (h | ⟨c, hc, hcv⟩)
            · rw [hnaf] at h
              exact absurd h (by simp)
            · rw [readChars, if_pos h32] at hc
              have hc2 : c ∈ bitmap.take 16 ++ bitmap.drop 16 := by
                rw [List.take_append_drop]
                exact hc
              rcases List.mem_append.mp hc2 with h1 | h2
              · exact absurd hcv (by have := parseHexNat_ok_all hpr c h1; omega)
              · have hdl : (bitmap.drop 16).length ≤ 16 := by
                  rw [List.length_drop, h32]
                have hctake : c ∈ (bitmap.drop 16).take 16 := by
                  rw [List.take_of_length_le hdl]
                  exact h2
                exact absurd hcv (by have := parseHexNat_ok_all hps c hctake; omega)
      · rw [if_neg h32]
        constructor
        · rintro ⟨e, he⟩
          exact absurd he (by simp)
        · rintro (h | ⟨c, hc, hcv⟩)
          · rw [hnaf] at h
            exact absurd h (by simp)
          · rw [readChars, if_neg h32] at hc
            exact absurd hcv (by have := parseHexNat_ok_all hpr c hc; omega)

/-- Witness for C5: parsing the two-digit indicator "02" at position 0 of
"02AB" yields value 2 and position 2. -/
theorem parse_length_indicator_witness :
    parse_length_indicator ['0', '2', 'A', 'B'] 0 2 = .ok (2, 2) := by
  have h := (parse_length_indicator_correct ['0', '2', 'A', 'B'] 0 2 (Or.inl rfl)).1
    (by decide)
  exact h.1.trans (by rfl)

end ISO8583
